import Mathlib

/-!
# Verification of the TSP genetic-algorithm core (`GA doganer kartum.py`)

Shallow embedding of the genetic-algorithm TSP solver.  Python floats are
modelled as exact rationals for coordinates, with `Real.sqrt` for
`math.sqrt`, so arithmetic is the exact idealisation of the float program.
Python exceptions (`ValueError` from `random.sample`, `IndexError`,
`min([])`, `len(None)`) are modelled by `Option`, with `none` standing for
a raised exception.

Randomness: the Python code draws from the global `random` module.  Each
draw is modelled by an explicit oracle argument:
* `random.shuffle` becomes a function `sh : List City → List City` whose
  contract (`ShuffleOK`) is that it permutes its input;
* `random.sample(population, k)` becomes a function `sel : ℕ → List ℕ`
  giving, for the length of the sampled list, the chosen positions; its
  contract (`SelOK`) is `k` distinct in-range positions whenever
  `k ≤ length` (Python raises `ValueError` otherwise, which the embedding
  checks explicitly);
* `random.sample(range n, 2)` becomes `pf : ℕ → ℕ × ℕ` with contract
  `PairOK` (two distinct positions below `n` whenever `2 ≤ n`);
* `random.random()` becomes an explicit rational draw `r` with the
  contract `0 ≤ r < 1` where a theorem needs it.
-/

namespace GA

/-- A city record `(city_id, x, y)` as produced by `read_tsp_file`.
Coordinates are Python floats, modelled as exact rationals.  Equality
(used by `in`, `list.remove`, `list.index`) is whole-tuple equality,
exactly as for Python tuples. -/
structure City where
  cid : ℤ
  x : ℚ
  y : ℚ
deriving DecidableEq, Repr

/-- A candidate tour: an ordered list of cities (closed implicitly). -/
abbrev Tour := List City

/-- Default city used to totalise positional lookups that the Python code
only performs at indices already known to be in range. -/
def cityD : City := ⟨0, 0, 0⟩

/-- `euclidean_distance(city1, city2)`:
`math.sqrt((city2[1] - city1[1]) ** 2 + (city2[2] - city1[2]) ** 2)`. -/
noncomputable def euclidean_distance (city1 city2 : City) : ℝ :=
  Real.sqrt (((city2.x - city1.x) ^ 2 + (city2.y - city1.y) ^ 2 : ℚ) : ℝ)

/-- The `for city in unvisited` scan of `greedy_algorithm`: carries
`(nearest_city, min_distance)` as an accumulator, `none` standing for the
initial `(None, float('inf'))` (any finite distance beats infinity). -/
noncomputable def selectNearest (current : City) :
    List City → Option (City × ℝ) → Option (City × ℝ)
  | [], acc => acc
  | c :: rest, acc =>
      match acc with
      | none => selectNearest current rest (some (c, euclidean_distance current c))
      | some (b, bd) =>
          if euclidean_distance current c < bd then
            selectNearest current rest (some (c, euclidean_distance current c))
          else
            selectNearest current rest (some (b, bd))

/-- The `while unvisited:` loop of `greedy_algorithm`, with fuel equal to
the number of unvisited cities (the loop removes exactly one per
iteration).  `unvisited.remove(nearest_city)` removes the first occurrence
equal to the nearest city, i.e. `List.erase`. -/
noncomputable def greedy_go : ℕ → City → List City → List City
  | 0, _, _ => []
  | n + 1, current, unvisited =>
      match selectNearest current unvisited none with
      | none => []
      | some (nearest, _) => nearest :: greedy_go n nearest (unvisited.erase nearest)

/-- `greedy_algorithm(cities, start)`.  `unvisited.pop(start)` raises
`IndexError` when `start` is out of range, modelled by `none`. -/
noncomputable def greedy_algorithm (cities : List City) (start : ℕ) : Option Tour :=
  if h : start < cities.length then
    some (cities.get ⟨start, h⟩ ::
      greedy_go (cities.eraseIdx start).length (cities.get ⟨start, h⟩)
        (cities.eraseIdx start))
  else none

/-- `random_algorithm(cities)`: copies the list and shuffles it in place.
The shuffle performed by `random.shuffle` is the oracle `sh`. -/
def random_algorithm (cities : List City) (sh : List City → List City) : Tour :=
  sh cities

/-- Contract of the `random.shuffle` oracle: it permutes its input. -/
def ShuffleOK (sh : List City → List City) : Prop :=
  ∀ l : List City, (sh l).Perm l

/-- Sum of distances over consecutive pairs,
`sum(euclidean_distance(route[i], route[i+1]) for i in range(len(route)-1))`. -/
noncomputable def pathLen : List City → ℝ
  | [] => 0
  | [_] => 0
  | c1 :: c2 :: rest => euclidean_distance c1 c2 + pathLen (c2 :: rest)

/-- `calculate_route_length(route)`: consecutive distances plus the closing
edge `route[-1] → route[0]`.  On `[]`, `route[-1]` raises `IndexError`
(`none`); `range(-1)` contributes nothing. -/
noncomputable def calculate_route_length : List City → Option ℝ
  | [] => none
  | c :: rest =>
      some (pathLen (c :: rest) +
        euclidean_distance ((c :: rest).getLast (List.cons_ne_nil c rest)) c)

/-- The simultaneous swap `route[idx1], route[idx2] = route[idx2], route[idx1]`:
both right-hand sides are read from the original list before either write. -/
def swap2 (route : Tour) (idx1 idx2 : ℕ) : Tour :=
  (route.set idx1 (route.getD idx2 cityD)).set idx2 (route.getD idx1 cityD)

/-- Contract of the `random.sample(range(n), 2)` oracle: whenever `2 ≤ n`
it yields two distinct positions below `n`. -/
def PairOK (pf : ℕ → ℕ × ℕ) : Prop :=
  ∀ n, 2 ≤ n → (pf n).1 ≠ (pf n).2 ∧ (pf n).1 < n ∧ (pf n).2 < n

/-- `swap_mutation(route, mutation_probability)`.  `r` is the draw of
`random.random()`; `pf` is the `random.sample(range(len(route)), 2)`
oracle, which raises `ValueError` (here `none`) when `len(route) < 2`. -/
def swap_mutation (route : Tour) (mutation_probability : ℚ) (r : ℚ)
    (pf : ℕ → ℕ × ℕ) : Option Tour :=
  if r < mutation_probability then
    if 2 ≤ route.length then
      some (swap2 route (pf route.length).1 (pf route.length).2)
    else none
  else some route

/-- The crossover expression inlined in `create_new_epoch`:
`parent1[:split_point] + [city for city in parent2 if city not in parent1[:split_point]]`
with `split_point = len(parent1) // 2`. -/
def crossover (parent1 parent2 : Tour) : Tour :=
  parent1.take (parent1.length / 2) ++
    parent2.filter (fun city => decide (city ∉ parent1.take (parent1.length / 2)))

/-- Contract of the `random.sample(population, k)` oracle `sel`: for the
length `n` of the sampled list with `k ≤ n`, it yields `k` distinct
in-range positions. -/
def SelOK (sel : ℕ → List ℕ) (k : ℕ) : Prop :=
  ∀ n, k ≤ n → (sel n).length = k ∧ (sel n).Nodup ∧ ∀ i ∈ sel n, i < n

/-- `random.sample(population, k)` on a list of tours: raises `ValueError`
(`none`) when `k` exceeds the population size, otherwise returns the tours
at the oracle-chosen positions. -/
def pySample (population : List Tour) (k : ℕ) (sel : ℕ → List ℕ) :
    Option (List Tour) :=
  if k ≤ population.length then
    some ((sel population.length).map (fun i => population.getD i []))
  else none

/-- The `for sol in selected` scan of `tournament_selection`, carrying
`(best, best_score)`; the accumulator `none` is the initial
`(None, float('inf'))`.  A `calculate_route_length` failure propagates as
the outer `none`. -/
noncomputable def tournamentLoop :
    List Tour → Option (Tour × ℝ) → Option (Option (Tour × ℝ))
  | [], acc => some acc
  | sol :: rest, acc =>
      match calculate_route_length sol with
      | none => none
      | some s =>
          match acc with
          | none => tournamentLoop rest (some (sol, s))
          | some (b, bs) =>
              if s < bs then tournamentLoop rest (some (sol, s))
              else tournamentLoop rest (some (b, bs))

/-- `tournament_selection(population, tournament_size=7)`.  The outer
`Option` is a raised exception; the inner `Option` is the Python value
(`None` when the sample was empty, otherwise the winning tour). -/
noncomputable def tournament_selection (population : List Tour)
    (sel : ℕ → List ℕ) (tournament_size : ℕ := 7) : Option (Option Tour) :=
  match pySample population tournament_size sel with
  | none => none
  | some selected =>
      match tournamentLoop selected none with
      | none => none
      | some acc => some (acc.map Prod.fst)

/-- The random draws consumed by one iteration of the body of
`create_new_epoch`: the two tournament samples, the `random.random()`
draw, and the mutation index pair. -/
structure GenChoices where
  sel1 : ℕ → List ℕ
  sel2 : ℕ → List ℕ
  r : ℚ
  pair : ℕ → ℕ × ℕ

/-- One iteration of the body of `create_new_epoch`: select two parents by
tournament (a Python `None` parent would raise `TypeError` at
`len(parent1)`, hence `none`), cross them over, mutate the child. -/
noncomputable def create_child (population : List Tour)
    (mutation_probability : ℚ) (ch : GenChoices) : Option Tour :=
  match tournament_selection population ch.sel1 with
  | some (some parent1) =>
      match tournament_selection population ch.sel2 with
      | some (some parent2) =>
          swap_mutation (crossover parent1 parent2) mutation_probability ch.r ch.pair
      | _ => none
  | _ => none

/-- The `for _ in range(len(population))` loop of `create_new_epoch`:
`i` is the iteration counter (indexing the per-iteration random draws),
`k` the remaining iteration count. -/
noncomputable def create_new_epoch_go (population : List Tour)
    (mutation_probability : ℚ) (chs : ℕ → GenChoices) :
    ℕ → ℕ → Option (List Tour)
  | _, 0 => some []
  | i, k + 1 =>
      match create_child population mutation_probability (chs i) with
      | none => none
      | some child =>
          match create_new_epoch_go population mutation_probability chs (i + 1) k with
          | none => none
          | some rest => some (child :: rest)

/-- `create_new_epoch(population, mutation_probability=0.2)`. -/
noncomputable def create_new_epoch (population : List Tour)
    (mutation_probability : ℚ) (chs : ℕ → GenChoices) : Option (List Tour) :=
  create_new_epoch_go population mutation_probability chs 0 population.length

/-- `[calculate_route_length(individual) for individual in population]`:
any failure inside the comprehension propagates. -/
noncomputable def scoresOf : List Tour → Option (List ℝ)
  | [] => some []
  | t :: rest =>
      match calculate_route_length t, scoresOf rest with
      | some s, some ss => some (s :: ss)
      | _, _ => none

/-- Python `min` over a list of floats: raises `ValueError` on `[]`,
otherwise a left fold of binary `min`. -/
noncomputable def listMin : List ℝ → Option ℝ
  | [] => none
  | a :: rest => some (rest.foldl min a)

/-- Python `max` over a list of floats. -/
noncomputable def listMax : List ℝ → Option ℝ
  | [] => none
  | a :: rest => some (rest.foldl max a)

/-- Python `scores.index(x)`: position of the first element equal to `x`
(the call sites only use it with `x = min(scores)`, which is present). -/
noncomputable def indexOfR (x : ℝ) : List ℝ → ℕ
  | [] => 0
  | a :: rest => if a = x then 0 else indexOfR x rest + 1

/-- The mutable state of the `for epoch in range(epochs)` loop of
`run_genetic_algorithm`.  `best` packs `(best_solution, best_score)`, with
`none` for the initial `(None, float('inf'))`. -/
structure GAState where
  population : List Tour
  best : Option (Tour × ℝ)
  best_scores_per_epoch : List ℝ
  avg_scores_per_epoch : List ℝ
  worst_scores_per_epoch : List ℝ

/-- One iteration of the epoch loop of `run_genetic_algorithm`: regenerate
the population, score it, record best/avg/worst, update the best-ever
solution when the generation's best is strictly better. -/
noncomputable def ga_epoch (mutation_probability : ℚ) (chs : ℕ → GenChoices)
    (st : GAState) : Option GAState :=
  match create_new_epoch st.population mutation_probability chs with
  | none => none
  | some population =>
      match scoresOf population with
      | none => none
      | some scores =>
          match listMin scores, listMax scores with
          | some best_epoch_score, some worst_epoch_score =>
              let avg_epoch_score : ℝ := scores.sum / scores.length
              let best :=
                match st.best with
                | none =>
                    some (population.getD (indexOfR best_epoch_score scores) [],
                      best_epoch_score)
                | some (b, bs) =>
                    if best_epoch_score < bs then
                      some (population.getD (indexOfR best_epoch_score scores) [],
                        best_epoch_score)
                    else some (b, bs)
              some ⟨population, best,
                st.best_scores_per_epoch ++ [best_epoch_score],
                st.avg_scores_per_epoch ++ [avg_epoch_score],
                st.worst_scores_per_epoch ++ [worst_epoch_score]⟩
          | _, _ => none

/-- The `for epoch in range(epochs)` loop: `e` is the epoch counter
(indexing the per-epoch random draws), `k` the remaining epoch count. -/
noncomputable def ga_loop (mutation_probability : ℚ)
    (chs : ℕ → ℕ → GenChoices) : ℕ → ℕ → GAState → Option GAState
  | _, 0, st => some st
  | e, k + 1, st =>
      match ga_epoch mutation_probability (chs e) st with
      | none => none
      | some st1 => ga_loop mutation_probability chs (e + 1) k st1

/-- `run_genetic_algorithm(cities, initial_population_size, epochs,
mutation_probability)`.  `shs i` is the shuffle used to build the `i`-th
initial individual; `chs e i` the draws of iteration `i` of epoch `e`.
The returned state carries exactly the components of the Python
return tuple (plus the final population). -/
noncomputable def run_genetic_algorithm (cities : List City)
    (initial_population_size epochs : ℕ) (mutation_probability : ℚ)
    (shs : ℕ → List City → List City) (chs : ℕ → ℕ → GenChoices) :
    Option GAState :=
  ga_loop mutation_probability chs 0 epochs
    ⟨(List.range initial_population_size).map
        (fun i => random_algorithm cities (shs i)),
      none, [], [], []⟩

/-! ## Basic lemmas about the embedded operations -/

theorem euclidean_distance_self (c : City) : euclidean_distance c c = 0 := by
  simp [euclidean_distance]

theorem euclidean_distance_comm (c1 c2 : City) :
    euclidean_distance c1 c2 = euclidean_distance c2 c1 := by
  unfold euclidean_distance
  congr 1
  push_cast
  ring

theorem euclidean_distance_nonneg (c1 c2 : City) :
    0 ≤ euclidean_distance c1 c2 := Real.sqrt_nonneg _

/-- Setting position `m` to `a` after saving the old entry at `m` is a
permutation exchange with a cons. -/
theorem getD_cons_set_perm : ∀ (t : List City) (m : ℕ) (a : City),
    m < t.length → (t.getD m cityD :: t.set m a).Perm (a :: t) := by
  intro t
  induction t with
  | nil => intro m a h; simp at h
  | cons x t ih =>
      intro m a h
      cases m with
      | zero =>
          simpa using List.Perm.swap a x t
      | succ m =>
          have hm : m < t.length := by simpa using h
          have step := ih m a hm
          have g : ((x :: t).getD (m + 1) cityD :: (x :: t).set (m + 1) a)
              = t.getD m cityD :: x :: t.set m a := by simp
          rw [g]
          exact ((List.Perm.swap x _ _).trans (step.cons x)).trans
            (List.Perm.swap a x t)

/-- The simultaneous swap of two in-range positions is a permutation. -/
theorem swap2_perm : ∀ (l : List City) (i j : ℕ),
    i < l.length → j < l.length → (swap2 l i j).Perm l := by
  intro l
  induction l with
  | nil => intro i j hi _; simp at hi
  | cons x t ih =>
      intro i j hi hj
      cases i with
      | zero =>
          cases j with
          | zero => simp [swap2]
          | succ m =>
              have hm : m < t.length := by simpa using hj
              have : swap2 (x :: t) 0 (m + 1) = t.getD m cityD :: t.set m x := by
                simp [swap2]
              rw [this]
              exact getD_cons_set_perm t m x hm
      | succ n =>
          cases j with
          | zero =>
              have hn : n < t.length := by simpa using hi
              have : swap2 (x :: t) (n + 1) 0 = t.getD n cityD :: t.set n x := by
                simp [swap2]
              rw [this]
              exact getD_cons_set_perm t n x hn
          | succ m =>
              have hn : n < t.length := by simpa using hi
              have hm : m < t.length := by simpa using hj
              have : swap2 (x :: t) (n + 1) (m + 1) = x :: swap2 t n m := by
                simp [swap2]
              rw [this]
              exact (ih n m hn hm).cons x

/-- The accumulator scan of `greedy_algorithm` only ever returns the
accumulator itself or a member of the scanned list. -/
theorem selectNearest_mem (cur : City) : ∀ (l : List City) (acc p),
    selectNearest cur l acc = some p → acc = some p ∨ p.1 ∈ l := by
  intro l
  induction l with
  | nil => intro acc p h; exact Or.inl (by simpa [selectNearest] using h)
  | cons c rest ih =>
      intro acc p h
      cases acc with
      | none =>
          rw [selectNearest] at h
          rcases ih _ _ h with h1 | h2
          · obtain rfl := Option.some_inj.mp h1
            exact Or.inr (by simp)
          · exact Or.inr (List.mem_cons_of_mem c h2)
      | some q =>
          obtain ⟨b, bd⟩ := q
          rw [selectNearest] at h
          by_cases hlt : euclidean_distance cur c < bd
          · rw [if_pos hlt] at h
            rcases ih _ _ h with h1 | h2
            · obtain rfl := Option.some_inj.mp h1
              exact Or.inr (by simp)
            · exact Or.inr (List.mem_cons_of_mem c h2)
          · rw [if_neg hlt] at h
            rcases ih _ _ h with h1 | h2
            · exact Or.inl h1
            · exact Or.inr (List.mem_cons_of_mem c h2)

/-- Once the accumulator is set, the scan always returns a value. -/
theorem selectNearest_some (cur : City) : ∀ (l : List City) (q : City × ℝ),
    ∃ p, selectNearest cur l (some q) = some p := by
  intro l
  induction l with
  | nil => intro q; exact ⟨q, rfl⟩
  | cons c rest ih =>
      intro q
      obtain ⟨b, bd⟩ := q
      rw [selectNearest]
      by_cases hlt : euclidean_distance cur c < bd
      · rw [if_pos hlt]; exact ih _
      · rw [if_neg hlt]; exact ih _

/-- On a non-empty unvisited list the scan returns a value. -/
theorem selectNearest_cons (cur c : City) (rest : List City) :
    ∃ p, selectNearest cur (c :: rest) none = some p := by
  rw [selectNearest]
  exact selectNearest_some cur rest _

/-- The greedy while-loop visits exactly the unvisited cities. -/
theorem greedy_go_perm : ∀ (n : ℕ) (cur : City) (l : List City),
    l.length = n → (greedy_go n cur l).Perm l := by
  intro n
  induction n with
  | zero =>
      intro cur l h
      rw [List.length_eq_zero.mp h]
      exact List.Perm.refl _
  | succ n ih =>
      intro cur l h
      obtain ⟨c, rest, rfl⟩ : ∃ c rest, l = c :: rest := by
        cases l with
        | nil => simp at h
        | cons c rest => exact ⟨c, rest, rfl⟩
      obtain ⟨p, hp⟩ := selectNearest_cons cur c rest
      have hm : p.1 ∈ c :: rest := by
        rcases selectNearest_mem cur _ _ _ hp with h1 | h2
        · exact absurd h1.symm (by simp)
        · exact h2
      have hlen : ((c :: rest).erase p.1).length = n := by
        rw [List.length_erase_of_mem hm, List.length_cons]
        simp only [List.length_cons] at h
        omega
      have hrw : greedy_go (n + 1) cur (c :: rest)
          = p.1 :: greedy_go n p.1 ((c :: rest).erase p.1) := by
        rw [greedy_go, hp]
      rw [hrw]
      exact ((ih p.1 _ hlen).cons p.1).trans (List.perm_cons_erase hm).symm

/-- Removing the element at an in-range position and re-consing it is a
permutation of the original list. -/
theorem get_cons_eraseIdx_perm (l : List City) (i : ℕ) (h : i < l.length) :
    (l.get ⟨i, h⟩ :: l.eraseIdx i).Perm l := by
  rw [List.eraseIdx_eq_take_drop_succ]
  have h2 : (l.take i ++ l.get ⟨i, h⟩ :: l.drop (i + 1)).Perm
      (l.get ⟨i, h⟩ :: (l.take i ++ l.drop (i + 1))) := List.perm_middle
  have h3 : l.take i ++ l.get ⟨i, h⟩ :: l.drop (i + 1) = l := by
    show l.take i ++ l[i] :: l.drop (i + 1) = l
    rw [List.getElem_cons_drop l i h]
    exact List.take_append_drop i l
  exact (h3 ▸ h2).symm

/-- `greedy_algorithm` succeeds on every in-range start index and returns
a permutation of the input cities. -/
theorem greedy_algorithm_perm (cities : List City) (start : ℕ)
    (h : start < cities.length) :
    ∃ route, greedy_algorithm cities start = some route ∧ route.Perm cities := by
  refine ⟨_, by rw [greedy_algorithm, dif_pos h], ?_⟩
  exact ((greedy_go_perm _ _ _ rfl).cons _).trans (get_cons_eraseIdx_perm cities start h)

/-- The crossover child of two permutations of a duplicate-free city set
is again a permutation of that set. -/
theorem crossover_perm (p1 p2 : Tour) (h1 : p1.Nodup) (h12 : p1.Perm p2) :
    (crossover p1 p2).Perm p1 := by
  set T := p1.take (p1.length / 2) with hT
  have h2 : p2.Nodup := h12.nodup_iff.mp h1
  have hTnd : T.Nodup := h1.sublist (List.take_sublist _ _)
  have hIn : (p2.filter (fun a => decide (a ∈ T))).Perm T := by
    rw [List.perm_ext_iff_of_nodup (h2.filter _) hTnd]
    intro a
    simp only [List.mem_filter, decide_eq_true_eq]
    constructor
    · exact fun ha => ha.2
    · intro ha
      exact ⟨h12.mem_iff.mp ((List.take_subset _ _) ha), ha⟩
  have hsplit : (p2.filter (fun a => decide (a ∈ T)) ++
      p2.filter (fun a => decide (a ∉ T))).Perm p2 := by
    have := List.filter_append_perm (fun a => decide (a ∈ T)) p2
    simpa [decide_not] using this
  have e1 : crossover p1 p2 = T ++ p2.filter (fun a => decide (a ∉ T)) := rfl
  rw [e1]
  exact ((hIn.symm.append_right _).trans hsplit).trans h12.symm

/-- Crossover of a duplicate-free tour with itself returns the tour
itself: the second half survives the membership filter unchanged. -/
theorem crossover_self (t : Tour) (h : t.Nodup) : crossover t t = t := by
  unfold crossover
  set A := t.take (t.length / 2) with hA
  have hsplit : A ++ t.drop (t.length / 2) = t := List.take_append_drop _ t
  set B := t.drop (t.length / 2) with hB
  have hnd : (A ++ B).Nodup := by rw [hsplit]; exact h
  rw [List.nodup_append] at hnd
  have hfl : A.filter (fun a => decide (a ∉ A)) = [] := by
    rw [List.filter_eq_nil_iff]
    intro a ha
    simp [ha]
  have hfr : B.filter (fun a => decide (a ∉ A)) = B := by
    rw [List.filter_eq_self]
    intro a ha
    simpa using fun hmem => hnd.2.2 hmem ha
  have hfilter : t.filter (fun a => decide (a ∉ A)) = B := by
    conv_lhs => rw [← hsplit]
    rw [List.filter_append, hfl, hfr, List.nil_append]
  rw [hfilter]
  exact hsplit

/-! ## Tournament selection lemmas -/

/-- A non-empty tour always has a route length. -/
theorem calculate_route_length_isSome (t : Tour) (h : t ≠ []) :
    ∃ s, calculate_route_length t = some s := by
  cases t with
  | nil => exact absurd rfl h
  | cons c rest => exact ⟨_, rfl⟩

/-- The tournament scan only ever returns the accumulator or a member of
the scanned sample. -/
theorem tournamentLoop_mem : ∀ (l : List Tour) (acc : Option (Tour × ℝ))
    (p : Tour × ℝ), tournamentLoop l acc = some (some p) →
    acc = some p ∨ p.1 ∈ l := by
  intro l
  induction l with
  | nil =>
      intro acc p h
      exact Or.inl (Option.some_inj.mp h)
  | cons t rest ih =>
      intro acc p h
      rw [tournamentLoop] at h
      cases e : calculate_route_length t with
      | none => rw [e] at h; cases h
      | some s =>
          rw [e] at h
          simp only at h
          cases acc with
          | none =>
              rcases ih _ _ h with h1 | h2
              · obtain rfl := Option.some_inj.mp h1
                exact Or.inr (by simp)
              · exact Or.inr (List.mem_cons_of_mem t h2)
          | some q =>
              obtain ⟨b, bs⟩ := q
              simp only at h
              by_cases hlt : s < bs
              · rw [if_pos hlt] at h
                rcases ih _ _ h with h1 | h2
                · obtain rfl := Option.some_inj.mp h1
                  exact Or.inr (by simp)
                · exact Or.inr (List.mem_cons_of_mem t h2)
              · rw [if_neg hlt] at h
                rcases ih _ _ h with h1 | h2
                · exact Or.inl h1
                · exact Or.inr (List.mem_cons_of_mem t h2)

/-- Full characterisation of the tournament scan started on an
accumulator whose stored score is its tour's length: the result is the
first-encountered minimum. -/
theorem tournamentLoop_some_spec : ∀ (l : List Tour) (b : Tour) (bs : ℝ),
    (∀ t ∈ l, ∃ s, calculate_route_length t = some s) →
    calculate_route_length b = some bs →
    ∃ c cs, tournamentLoop l (some (b, bs)) = some (some (c, cs)) ∧
      calculate_route_length c = some cs ∧ cs ≤ bs ∧
      (∀ u ∈ l, ∀ su, calculate_route_length u = some su → cs ≤ su) ∧
      ((c = b ∧ cs = bs) ∨
        ∃ pre post, l = pre ++ c :: post ∧ cs < bs ∧
          ∀ u ∈ pre, ∀ su, calculate_route_length u = some su → cs < su) := by
  intro l
  induction l with
  | nil =>
      intro b bs _ hb
      exact ⟨b, bs, rfl, hb, le_refl _, by simp, Or.inl ⟨rfl, rfl⟩⟩
  | cons t rest ih =>
      intro b bs hl hb
      obtain ⟨st, hst⟩ := hl t (List.mem_cons_self t rest)
      have hrest : ∀ u ∈ rest, ∃ s, calculate_route_length u = some s :=
        fun u hu => hl u (List.mem_cons_of_mem t hu)
      rw [tournamentLoop, hst]
      simp only
      by_cases hlt : st < bs
      · rw [if_pos hlt]
        obtain ⟨c, cs, hloop, hc, hcs, hall, hdisj⟩ := ih t st hrest hst
        refine ⟨c, cs, hloop, hc, le_of_lt (lt_of_le_of_lt hcs hlt), ?_, ?_⟩
        · intro u hu su hsu
          rcases List.mem_cons.mp hu with rfl | hu2
          · have hsust : su = st := by
              rw [hsu] at hst; exact Option.some_inj.mp hst
            rw [hsust]; exact hcs
          · exact hall u hu2 su hsu
        · rcases hdisj with ⟨rfl, rfl⟩ | ⟨pre, post, hsplit, hlt2, hpre⟩
          · exact Or.inr ⟨[], rest, rfl, hlt, by simp⟩
          · refine Or.inr ⟨t :: pre, post, by rw [hsplit]; rfl, lt_trans hlt2 hlt, ?_⟩
            intro u hu su hsu
            rcases List.mem_cons.mp hu with rfl | hu2
            · have hsust : su = st := by
                rw [hsu] at hst; exact Option.some_inj.mp hst
              rw [hsust]; exact hlt2
            · exact hpre u hu2 su hsu
      · rw [if_neg hlt]
        obtain ⟨c, cs, hloop, hc, hcs, hall, hdisj⟩ := ih b bs hrest hb
        refine ⟨c, cs, hloop, hc, hcs, ?_, ?_⟩
        · intro u hu su hsu
          rcases List.mem_cons.mp hu with rfl | hu2
          · have hsust : su = st := by
              rw [hsu] at hst; exact Option.some_inj.mp hst
            rw [hsust]
            exact le_trans hcs (le_of_not_lt hlt)
          · exact hall u hu2 su hsu
        · rcases hdisj with ⟨rfl, rfl⟩ | ⟨pre, post, hsplit, hlt2, hpre⟩
          · exact Or.inl ⟨rfl, rfl⟩
          · refine Or.inr ⟨t :: pre, post, by rw [hsplit]; rfl, hlt2, ?_⟩
            intro u hu su hsu
            rcases List.mem_cons.mp hu with rfl | hu2
            · have hsust : su = st := by
                rw [hsu] at hst; exact Option.some_inj.mp hst
              rw [hsust]
              exact lt_of_lt_of_le hlt2 (le_of_not_lt hlt)
            · exact hpre u hu2 su hsu

/-- The tournament scan from the initial `(None, inf)` accumulator on a
non-empty sample returns the first-encountered minimum of the sample. -/
theorem tournamentLoop_none_spec (l : List Tour) (hne : l ≠ [])
    (hl : ∀ t ∈ l, ∃ s, calculate_route_length t = some s) :
    ∃ pre c post cs, l = pre ++ c :: post ∧
      tournamentLoop l none = some (some (c, cs)) ∧
      calculate_route_length c = some cs ∧
      (∀ u ∈ pre, ∀ su, calculate_route_length u = some su → cs < su) ∧
      (∀ u ∈ l, ∀ su, calculate_route_length u = some su → cs ≤ su) := by
  obtain ⟨t, rest, rfl⟩ := List.exists_cons_of_ne_nil hne
  obtain ⟨st, hst⟩ := hl t (List.mem_cons_self t rest)
  have hrest : ∀ u ∈ rest, ∃ s, calculate_route_length u = some s :=
    fun u hu => hl u (List.mem_cons_of_mem t hu)
  have hstep : tournamentLoop (t :: rest) none
      = tournamentLoop rest (some (t, st)) := by
    rw [tournamentLoop, hst]
  obtain ⟨c, cs, hloop, hc, hcs, hall, hdisj⟩ :=
    tournamentLoop_some_spec rest t st hrest hst
  rcases hdisj with ⟨rfl, rfl⟩ | ⟨pre, post, hsplit, hlt2, hpre⟩
  · refine ⟨[], c, rest, cs, rfl, by rw [hstep, hloop], hc, by simp, ?_⟩
    intro u hu su hsu
    rcases List.mem_cons.mp hu with rfl | hu2
    · have : su = cs := by rw [hsu] at hst; exact Option.some_inj.mp hst
      rw [this]
    · exact hall u hu2 su hsu
  · refine ⟨t :: pre, c, post, cs, by rw [hsplit]; rfl, by rw [hstep, hloop], hc, ?_, ?_⟩
    · intro u hu su hsu
      rcases List.mem_cons.mp hu with rfl | hu2
      · have : su = st := by rw [hsu] at hst; exact Option.some_inj.mp hst
        rw [this]; exact hlt2
      · exact hpre u hu2 su hsu
    · intro u hu su hsu
      rcases List.mem_cons.mp hu with rfl | hu2
      · have : su = st := by rw [hsu] at hst; exact Option.some_inj.mp hst
        rw [this]; exact le_of_lt hlt2
      · exact hall u hu2 su hsu

/-- A successful `random.sample` of `k` tours: exists exactly when
`k ≤ len(population)`, has `k` elements, all drawn from the population. -/
theorem pySample_spec (population : List Tour) (k : ℕ) (sel : ℕ → List ℕ)
    (hsel : SelOK sel k) (hk : k ≤ population.length) :
    ∃ sample, pySample population k sel = some sample ∧
      sample.length = k ∧ ∀ t ∈ sample, t ∈ population := by
  obtain ⟨hlen, _, hbound⟩ := hsel population.length hk
  refine ⟨_, by rw [pySample, if_pos hk], by simpa using hlen, ?_⟩
  intro t ht
  obtain ⟨i, hi, rfl⟩ := List.mem_map.mp ht
  have hilt : i < population.length := hbound i hi
  rw [List.getD_eq_getElem population [] hilt]
  exact List.getElem_mem hilt

/-- `random.sample` raises `ValueError` exactly when the sample size
exceeds the population size. -/
theorem pySample_none_iff (population : List Tour) (k : ℕ) (sel : ℕ → List ℕ) :
    pySample population k sel = none ↔ population.length < k := by
  rw [pySample]
  by_cases h : k ≤ population.length
  · rw [if_pos h]; simp; omega
  · rw [if_neg h]; simp; omega

/-- A winning tour of `tournament_selection` is a member of the
population. -/
theorem tournament_selection_mem (population : List Tour) (sel : ℕ → List ℕ)
    (k : ℕ) (t : Tour) (hsel : SelOK sel k)
    (h : tournament_selection population sel k = some (some t)) :
    t ∈ population := by
  rw [tournament_selection] at h
  cases e1 : pySample population k sel with
  | none => rw [e1] at h; cases h
  | some sample =>
      rw [e1] at h
      simp only at h
      cases e2 : tournamentLoop sample none with
      | none => rw [e2] at h; cases h
      | some acc =>
          rw [e2] at h
          simp only at h
          cases acc with
          | none => simp at h
          | some p =>
              have hp : p.1 = t := by simpa using h
              have hk : k ≤ population.length := by
                by_contra hkk
                rw [pySample, if_neg hkk] at e1
                cases e1
              obtain ⟨sample2, he, _, hmem⟩ := pySample_spec population k sel hsel hk
              have hss : sample2 = sample := by
                rw [he] at e1; exact Option.some_inj.mp e1
              rcases tournamentLoop_mem sample none p e2 with h1 | h2
              · cases h1
              · rw [← hp]
                exact hmem _ (by rw [hss]; exact h2)

/-! ## Mutation lemmas -/

/-- A successful mutation returns a permutation of its input. -/
theorem swap_mutation_perm (route : Tour) (mp r : ℚ) (pf : ℕ → ℕ × ℕ)
    (mc : Tour) (hpf : PairOK pf)
    (h : swap_mutation route mp r pf = some mc) : mc.Perm route := by
  rw [swap_mutation] at h
  by_cases hr : r < mp
  · rw [if_pos hr] at h
    by_cases h2 : 2 ≤ route.length
    · rw [if_pos h2] at h
      obtain ⟨_, hi, hj⟩ := hpf _ h2
      obtain rfl := Option.some_inj.mp h.symm
      exact swap2_perm route _ _ hi hj
    · rw [if_neg h2] at h; cases h
  · rw [if_neg hr] at h
    obtain rfl := Option.some_inj.mp h.symm
    exact List.Perm.refl _

/-! ## Epoch-level permutation invariant -/

/-- Contract of all random draws consumed by the body of
`create_new_epoch`. -/
def ChoicesOK (chs : ℕ → GenChoices) : Prop :=
  ∀ i, SelOK (chs i).sel1 7 ∧ SelOK (chs i).sel2 7 ∧ PairOK (chs i).pair

/-- One select–crossover–mutate iteration preserves the permutation
invariant. -/
theorem create_child_perm (cities : List City) (population : List Tour)
    (mp : ℚ) (ch : GenChoices) (child : Tour) (hnd : cities.Nodup)
    (hpop : ∀ t ∈ population, t.Perm cities)
    (hsel1 : SelOK ch.sel1 7) (hsel2 : SelOK ch.sel2 7) (hpair : PairOK ch.pair)
    (h : create_child population mp ch = some child) : child.Perm cities := by
  rw [create_child] at h
  cases e1 : tournament_selection population ch.sel1 with
  | none => rw [e1] at h; cases h
  | some o1 =>
      rw [e1] at h
      cases o1 with
      | none => cases h
      | some parent1 =>
          cases e2 : tournament_selection population ch.sel2 with
          | none => rw [e2] at h; cases h
          | some o2 =>
              rw [e2] at h
              cases o2 with
              | none => cases h
              | some parent2 =>
                  have hp1 : parent1.Perm cities :=
                    hpop _ (tournament_selection_mem population ch.sel1 7 parent1 hsel1 e1)
                  have hp2 : parent2.Perm cities :=
                    hpop _ (tournament_selection_mem population ch.sel2 7 parent2 hsel2 e2)
                  have hx : (crossover parent1 parent2).Perm cities :=
                    (crossover_perm parent1 parent2 (hp1.nodup_iff.mpr hnd)
                      (hp1.trans hp2.symm)).trans hp1
                  exact (swap_mutation_perm _ mp ch.r ch.pair child hpair h).trans hx

/-- Every tour produced by the generation loop is a permutation of the
input cities. -/
theorem create_new_epoch_go_perm (cities : List City) (population : List Tour)
    (mp : ℚ) (chs : ℕ → GenChoices) (hnd : cities.Nodup)
    (hpop : ∀ t ∈ population, t.Perm cities) (hchs : ChoicesOK chs) :
    ∀ (k i : ℕ) (newpop : List Tour),
      create_new_epoch_go population mp chs i k = some newpop →
      ∀ t ∈ newpop, t.Perm cities := by
  intro k
  induction k with
  | zero =>
      intro i newpop h t ht
      rw [create_new_epoch_go] at h
      obtain rfl := Option.some_inj.mp h.symm
      cases ht
  | succ k ih =>
      intro i newpop h t ht
      rw [create_new_epoch_go] at h
      cases e1 : create_child population mp (chs i) with
      | none => rw [e1] at h; cases h
      | some child =>
          rw [e1] at h
          cases e2 : create_new_epoch_go population mp chs (i + 1) k with
          | none => rw [e2] at h; cases h
          | some rest =>
              rw [e2] at h
              obtain rfl := Option.some_inj.mp h.symm
              rcases List.mem_cons.mp ht with rfl | ht2
              · exact create_child_perm cities population mp (chs i) t hnd hpop
                  (hchs i).1 (hchs i).2.1 (hchs i).2.2 e1
              · exact ih (i + 1) rest e2 t ht2

/-- `create_new_epoch` preserves the permutation invariant. -/
theorem create_new_epoch_perm (cities : List City) (population : List Tour)
    (mp : ℚ) (chs : ℕ → GenChoices) (newpop : List Tour) (hnd : cities.Nodup)
    (hpop : ∀ t ∈ population, t.Perm cities) (hchs : ChoicesOK chs)
    (h : create_new_epoch population mp chs = some newpop) :
    ∀ t ∈ newpop, t.Perm cities :=
  create_new_epoch_go_perm cities population mp chs hnd hpop hchs _ 0 newpop h

/-! ## Score-list lemmas -/

theorem scoresOf_length : ∀ (pop : List Tour) (scores : List ℝ),
    scoresOf pop = some scores → scores.length = pop.length := by
  intro pop
  induction pop with
  | nil =>
      intro scores h
      obtain rfl := Option.some_inj.mp h.symm
      rfl
  | cons t rest ih =>
      intro scores h
      rw [scoresOf] at h
      cases e1 : calculate_route_length t with
      | none => rw [e1] at h; cases h
      | some s =>
          rw [e1] at h
          cases e2 : scoresOf rest with
          | none => rw [e2] at h; cases h
          | some ss =>
              rw [e2] at h
              simp only at h
              obtain rfl := Option.some_inj.mp h.symm
              simp [ih ss e2]

theorem scoresOf_getD : ∀ (pop : List Tour) (scores : List ℝ),
    scoresOf pop = some scores → ∀ k, k < pop.length →
    calculate_route_length (pop.getD k []) = some (scores.getD k 0) := by
  intro pop
  induction pop with
  | nil => intro scores _ k hk; simp at hk
  | cons t rest ih =>
      intro scores h k hk
      rw [scoresOf] at h
      cases e1 : calculate_route_length t with
      | none => rw [e1] at h; cases h
      | some s =>
          rw [e1] at h
          cases e2 : scoresOf rest with
          | none => rw [e2] at h; cases h
          | some ss =>
              rw [e2] at h
              simp only at h
              obtain rfl := Option.some_inj.mp h.symm
              cases k with
              | zero => simpa using e1
              | succ k =>
                  have hk2 : k < rest.length := by simpa using hk
                  simpa using ih ss e2 k hk2

theorem foldl_min_mem : ∀ (rest : List ℝ) (a : ℝ), rest.foldl min a ∈ a :: rest := by
  intro rest
  induction rest with
  | nil => intro a; simp
  | cons b t ih =>
      intro a
      have hfold : (b :: t).foldl min a = t.foldl min (min a b) := rfl
      rw [hfold]
      have hm := ih (min a b)
      rcases List.mem_cons.mp hm with h1 | h2
      · rw [h1]
        rcases min_choice a b with h | h
        · rw [h]; exact List.mem_cons_self a (b :: t)
        · rw [h]; exact List.mem_cons_of_mem a (List.mem_cons_self b t)
      · exact List.mem_cons_of_mem a (List.mem_cons_of_mem b h2)

theorem foldl_min_le : ∀ (rest : List ℝ) (a : ℝ),
    rest.foldl min a ≤ a ∧ ∀ x ∈ rest, rest.foldl min a ≤ x := by
  intro rest
  induction rest with
  | nil => intro a; exact ⟨le_refl a, by simp⟩
  | cons b t ih =>
      intro a
      obtain ⟨h1, h2⟩ := ih (min a b)
      refine ⟨le_trans h1 (min_le_left a b), ?_⟩
      intro x hx
      rcases List.mem_cons.mp hx with rfl | hx2
      · exact le_trans h1 (min_le_right a x)
      · exact h2 x hx2

theorem listMin_mem (l : List ℝ) (m : ℝ) (h : listMin l = some m) : m ∈ l := by
  cases l with
  | nil => cases h
  | cons a rest =>
      obtain rfl := Option.some_inj.mp h.symm
      exact foldl_min_mem rest a

theorem listMin_le (l : List ℝ) (m : ℝ) (h : listMin l = some m) :
    ∀ x ∈ l, m ≤ x := by
  cases l with
  | nil => cases h
  | cons a rest =>
      obtain rfl := Option.some_inj.mp h.symm
      intro x hx
      rcases List.mem_cons.mp hx with rfl | hx2
      · exact (foldl_min_le rest x).1
      · exact (foldl_min_le rest a).2 x hx2

theorem listMin_append_one (l : List ℝ) (bs m : ℝ) (h : listMin l = some bs) :
    listMin (l ++ [m]) = some (min bs m) := by
  cases l with
  | nil => cases h
  | cons a rest =>
      obtain rfl := Option.some_inj.mp h.symm
      show some ((rest ++ [m]).foldl min a) = _
      rw [List.foldl_append]
      rfl

theorem indexOfR_lt_length (x : ℝ) : ∀ (l : List ℝ), x ∈ l →
    indexOfR x l < l.length := by
  intro l
  induction l with
  | nil => intro h; cases h
  | cons a rest ih =>
      intro h
      rw [indexOfR]
      by_cases ha : a = x
      · rw [if_pos ha]; simp
      · rw [if_neg ha]
        have hx : x ∈ rest := by
          rcases List.mem_cons.mp h with rfl | h2
          · exact absurd rfl ha
          · exact h2
        simpa using ih hx

theorem indexOfR_getD (x : ℝ) : ∀ (l : List ℝ), x ∈ l →
    l.getD (indexOfR x l) 0 = x := by
  intro l
  induction l with
  | nil => intro h; cases h
  | cons a rest ih =>
      intro h
      rw [indexOfR]
      by_cases ha : a = x
      · rw [if_pos ha]; simpa using ha
      · rw [if_neg ha]
        have hx : x ∈ rest := by
          rcases List.mem_cons.mp h with rfl | h2
          · exact absurd rfl ha
          · exact h2
        simpa using ih hx

/-! ## Epoch-loop characterisation -/

/-- Full characterisation of a successful `ga_epoch` step, mirroring the
loop body of `run_genetic_algorithm`. -/
theorem ga_epoch_spec (mp : ℚ) (chs : ℕ → GenChoices) (st st' : GAState)
    (h : ga_epoch mp chs st = some st') :
    ∃ pop scores m w,
      create_new_epoch st.population mp chs = some pop ∧
      scoresOf pop = some scores ∧
      listMin scores = some m ∧ listMax scores = some w ∧
      st'.population = pop ∧
      st'.best_scores_per_epoch = st.best_scores_per_epoch ++ [m] ∧
      st'.avg_scores_per_epoch
        = st.avg_scores_per_epoch ++ [scores.sum / scores.length] ∧
      st'.worst_scores_per_epoch = st.worst_scores_per_epoch ++ [w] ∧
      (∀ x ∈ scores, m ≤ x) ∧
      ((st.best = none ∧
          st'.best = some (pop.getD (indexOfR m scores) [], m)) ∨
        (∃ b bs, st.best = some (b, bs) ∧ m < bs ∧
          st'.best = some (pop.getD (indexOfR m scores) [], m)) ∨
        (∃ b bs, st.best = some (b, bs) ∧ ¬ m < bs ∧
          st'.best = some (b, bs))) := by
  rw [ga_epoch] at h
  cases e1 : create_new_epoch st.population mp chs with
  | none => rw [e1] at h; cases h
  | some pop =>
      rw [e1] at h
      simp only at h
      cases e2 : scoresOf pop with
      | none => rw [e2] at h; cases h
      | some scores =>
          rw [e2] at h
          simp only at h
          cases e3 : listMin scores with
          | none => rw [e3] at h; cases h
          | some m =>
              rw [e3] at h
              cases e4 : listMax scores with
              | none => rw [e4] at h; cases h
              | some w =>
                  rw [e4] at h
                  simp only at h
                  refine ⟨pop, scores, m, w, rfl, e2, e3, e4, ?_⟩
                  cases hb : st.best with
                  | none =>
                      rw [hb] at h
                      simp only at h
                      obtain rfl := Option.some_inj.mp h
                      exact ⟨rfl, rfl, rfl, rfl, listMin_le scores m e3,
                        Or.inl ⟨rfl, rfl⟩⟩
                  | some q =>
                      obtain ⟨b, bs⟩ := q
                      rw [hb] at h
                      simp only at h
                      by_cases hlt : m < bs
                      · rw [if_pos hlt] at h
                        obtain rfl := Option.some_inj.mp h
                        exact ⟨rfl, rfl, rfl, rfl, listMin_le scores m e3,
                          Or.inr (Or.inl ⟨b, bs, rfl, hlt, rfl⟩)⟩
                      · rw [if_neg hlt] at h
                        obtain rfl := Option.some_inj.mp h
                        exact ⟨rfl, rfl, rfl, rfl, listMin_le scores m e3,
                          Or.inr (Or.inr ⟨b, bs, rfl, hlt, rfl⟩)⟩

/-- The tour stored by the best-ever update really has the recorded
minimal length. -/
theorem epoch_sol_len (pop : List Tour) (scores : List ℝ) (m : ℝ)
    (h2 : scoresOf pop = some scores) (h3 : listMin scores = some m) :
    calculate_route_length (pop.getD (indexOfR m scores) []) = some m := by
  have hmem : m ∈ scores := listMin_mem scores m h3
  have hidx : indexOfR m scores < scores.length := indexOfR_lt_length m scores hmem
  have hlen : scores.length = pop.length := scoresOf_length pop scores h2
  have := scoresOf_getD pop scores h2 (indexOfR m scores) (hlen ▸ hidx)
  rwa [indexOfR_getD m scores hmem] at this

/-- Invariant tying the tracked best-ever pair to the recorded
per-epoch minima. -/
def BestInv (st : GAState) : Prop :=
  (st.best = none ∧ st.best_scores_per_epoch = []) ∨
  (∃ b bs, st.best = some (b, bs) ∧ calculate_route_length b = some bs ∧
    listMin st.best_scores_per_epoch = some bs)

theorem ga_epoch_bestInv (mp : ℚ) (chs : ℕ → GenChoices) (st st' : GAState)
    (h : ga_epoch mp chs st = some st') (hinv : BestInv st) : BestInv st' := by
  obtain ⟨pop, scores, m, w, _, h2, h3, _, _, hbep, _, _, _, hdisj⟩ :=
    ga_epoch_spec mp chs st st' h
  rcases hdisj with ⟨hb, hb'⟩ | ⟨b, bs, hb, hlt, hb'⟩ | ⟨b, bs, hb, hlt, hb'⟩
  · rcases hinv with ⟨_, hbests⟩ | ⟨b, bs, hbsome, _, _⟩
    · refine Or.inr ⟨_, m, hb', epoch_sol_len pop scores m h2 h3, ?_⟩
      rw [hbep, hbests]
      rfl
    · rw [hb] at hbsome; cases hbsome
  · rcases hinv with ⟨hbnone, _⟩ | ⟨b2, bs2, hbsome, _, hbmin⟩
    · rw [hb] at hbnone; cases hbnone
    · refine Or.inr ⟨_, m, hb', epoch_sol_len pop scores m h2 h3, ?_⟩
      rw [hb] at hbsome
      have hbs : bs = bs2 := congrArg Prod.snd (Option.some_inj.mp hbsome)
      rw [hbep, listMin_append_one _ bs2 m hbmin, ← hbs,
        min_eq_right (le_of_lt hlt)]
  · rcases hinv with ⟨hbnone, _⟩ | ⟨b2, bs2, hbsome, hblen, hbmin⟩
    · rw [hb] at hbnone; cases hbnone
    · rw [hb] at hbsome
      have heq := Option.some_inj.mp hbsome
      have hbb : b = b2 := congrArg Prod.fst heq
      have hbs : bs = bs2 := congrArg Prod.snd heq
      refine Or.inr ⟨b, bs, hb', ?_, ?_⟩
      · rw [hbb, hbs]; exact hblen
      · rw [hbep, listMin_append_one _ bs2 m hbmin, ← hbs,
          min_eq_left (le_of_not_lt hlt)]

theorem ga_loop_bestInv (mp : ℚ) (chs : ℕ → ℕ → GenChoices) :
    ∀ (k e : ℕ) (st st' : GAState), BestInv st →
    ga_loop mp chs e k st = some st' → BestInv st' := by
  intro k
  induction k with
  | zero =>
      intro e st st' hinv h
      rw [ga_loop] at h
      obtain rfl := Option.some_inj.mp h
      exact hinv
  | succ k ih =>
      intro e st st' hinv h
      rw [ga_loop] at h
      cases e1 : ga_epoch mp (chs e) st with
      | none => rw [e1] at h; cases h
      | some st1 =>
          rw [e1] at h
          exact ih (e + 1) st1 st' (ga_epoch_bestInv mp (chs e) st st1 e1 hinv) h

theorem ga_loop_bests_len (mp : ℚ) (chs : ℕ → ℕ → GenChoices) :
    ∀ (k e : ℕ) (st st' : GAState), ga_loop mp chs e k st = some st' →
    st'.best_scores_per_epoch.length = st.best_scores_per_epoch.length + k := by
  intro k
  induction k with
  | zero =>
      intro e st st' h
      rw [ga_loop] at h
      obtain rfl := Option.some_inj.mp h
      rfl
  | succ k ih =>
      intro e st st' h
      rw [ga_loop] at h
      cases e1 : ga_epoch mp (chs e) st with
      | none => rw [e1] at h; cases h
      | some st1 =>
          rw [e1] at h
          obtain ⟨_, _, m, _, _, _, _, _, _, hbep, _, _, _, _⟩ :=
            ga_epoch_spec mp (chs e) st st1 e1
          have := ih (e + 1) st1 st' h
          rw [this, hbep]
          simp
          omega

/-! ## Failure on small populations -/

theorem tournament_selection_none (population : List Tour) (sel : ℕ → List ℕ)
    (h : population.length < 7) : tournament_selection population sel 7 = none := by
  rw [tournament_selection]
  have e : pySample population 7 sel = none := by
    rw [pySample, if_neg (by omega)]
  rw [e]

theorem create_child_none (population : List Tour) (mp : ℚ) (ch : GenChoices)
    (h : population.length < 7) : create_child population mp ch = none := by
  rw [create_child, tournament_selection_none population ch.sel1 h]

theorem create_new_epoch_none (population : List Tour) (mp : ℚ)
    (chs : ℕ → GenChoices) (hne : population ≠ []) (h : population.length < 7) :
    create_new_epoch population mp chs = none := by
  rw [create_new_epoch]
  obtain ⟨k, hk⟩ : ∃ k, population.length = k + 1 := by
    cases e : population.length with
    | zero => exact absurd (List.length_eq_zero.mp e) hne
    | succ k => exact ⟨k, rfl⟩
  rw [hk, create_new_epoch_go, create_child_none population mp (chs 0) h]

theorem ga_epoch_none_of_small (mp : ℚ) (chs : ℕ → GenChoices) (st : GAState)
    (h : st.population.length < 7) : ga_epoch mp chs st = none := by
  rcases Nat.eq_zero_or_pos st.population.length with h0 | hpos
  · have hp : st.population = [] := List.length_eq_zero.mp h0
    rw [ga_epoch, hp]
    have e1 : create_new_epoch [] mp chs = some [] := by
      rw [create_new_epoch, List.length_nil, create_new_epoch_go]
    rw [e1]
    exact rfl
  · have hne : st.population ≠ [] := by
      intro e
      rw [e] at hpos
      simp at hpos
    rw [ga_epoch, create_new_epoch_none st.population mp chs hne h]

theorem run_none_of_small (cities : List City) (ips epochs : ℕ) (mp : ℚ)
    (shs : ℕ → List City → List City) (chs : ℕ → ℕ → GenChoices)
    (he : 1 ≤ epochs) (hips : ips < 7) :
    run_genetic_algorithm cities ips epochs mp shs chs = none := by
  obtain ⟨k, rfl⟩ : ∃ k, epochs = k + 1 := ⟨epochs - 1, by omega⟩
  rw [run_genetic_algorithm, ga_loop, ga_epoch_none_of_small]
  simpa using hips

/-! ## Concrete oracles used to instantiate theorems -/

/-- A fixed index-pair oracle: always positions 0 and 1. -/
def pairOracle : ℕ → ℕ × ℕ := fun _ => (0, 1)

theorem pairOracle_ok : PairOK pairOracle := by
  intro n hn
  refine ⟨?_, ?_, ?_⟩
  · show (0 : ℕ) ≠ 1
    decide
  · show 0 < n
    omega
  · show 1 < n
    omega

/-- A fixed sample oracle choosing the first seven positions. -/
def selOracle7 : ℕ → List ℕ := fun _ => [0, 1, 2, 3, 4, 5, 6]

theorem selOracle7_ok : SelOK selOracle7 7 := by
  intro n hn
  refine ⟨rfl, ?_, ?_⟩
  · show ([0, 1, 2, 3, 4, 5, 6] : List ℕ).Nodup
    decide
  · intro i hi
    have hm : i ∈ ([0, 1, 2, 3, 4, 5, 6] : List ℕ) := hi
    simp at hm
    omega

/-- A degenerate sample oracle always picking position 0. -/
def selOracle0 : ℕ → List ℕ := fun _ => [0]

theorem selOracle0_ok : SelOK selOracle0 1 := by
  intro n hn
  refine ⟨rfl, ?_, ?_⟩
  · show ([0] : List ℕ).Nodup
    decide
  · intro i hi
    have hm : i ∈ ([0] : List ℕ) := hi
    simp at hm
    omega

/-! ## Closed-tour length: rotation and reversal -/

/-- Closed-form value of `calculate_route_length` on a non-empty tour. -/
theorem calc_len_eq (l : List City) (h : l ≠ []) :
    calculate_route_length l
      = some (pathLen l + euclidean_distance (l.getLast h) (l.head h)) := by
  cases l with
  | nil => exact absurd rfl h
  | cons c rest => rfl

theorem pathLen_append_one : ∀ (l : List City) (h : l ≠ []) (a : City),
    pathLen (l ++ [a]) = pathLen l + euclidean_distance (l.getLast h) a := by
  intro l
  induction l with
  | nil => intro h; exact absurd rfl h
  | cons x t ih =>
      intro h a
      cases t with
      | nil =>
          show euclidean_distance x a + pathLen [a] = pathLen [x] + euclidean_distance x a
          rw [pathLen, pathLen]
          ring
      | cons y t' =>
          have hcons : pathLen (x :: y :: t' ++ [a])
              = euclidean_distance x y + pathLen (y :: t' ++ [a]) := rfl
          rw [hcons, ih (List.cons_ne_nil y t') a]
          have hgl : (x :: y :: t').getLast h = (y :: t').getLast (List.cons_ne_nil y t') :=
            List.getLast_cons (List.cons_ne_nil y t')
          rw [hgl]
          show euclidean_distance x y +
              (pathLen (y :: t') + euclidean_distance ((y :: t').getLast _) a)
            = pathLen (x :: y :: t') + euclidean_distance ((y :: t').getLast _) a
          rw [pathLen]
          ring

theorem pathLen_reverse : ∀ l : List City, pathLen l.reverse = pathLen l := by
  intro l
  induction l with
  | nil => rfl
  | cons x t ih =>
      cases t with
      | nil => rfl
      | cons y t' =>
          rw [List.reverse_cons]
          have hne : (y :: t').reverse ≠ [] := by simp
          rw [pathLen_append_one _ hne x, ih, List.getLast_reverse hne]
          show pathLen (y :: t') + euclidean_distance y x
            = euclidean_distance x y + pathLen (y :: t')
          rw [euclidean_distance_comm y x]
          ring

theorem calc_rotate_one (l : List City) (h : l ≠ []) :
    calculate_route_length (l.rotate 1) = calculate_route_length l := by
  obtain ⟨a, rest, rfl⟩ := List.exists_cons_of_ne_nil h
  have hrot : (a :: rest).rotate 1 = rest ++ [a] := by
    rw [List.rotate_cons_succ, List.rotate_zero]
  rw [hrot]
  cases rest with
  | nil => rfl
  | cons b r =>
      have hne : (b :: r) ≠ [] := List.cons_ne_nil b r
      have hne2 : (b :: r) ++ [a] ≠ [] := by simp
      rw [calc_len_eq _ hne2, calc_len_eq _ (List.cons_ne_nil a (b :: r))]
      have hgl2 : ((b :: r) ++ [a]).getLast hne2 = a := by
        simp [List.getLast_append]
      have hhd2 : ((b :: r) ++ [a]).head hne2 = b := rfl
      have hgl1 : (a :: b :: r).getLast (List.cons_ne_nil a (b :: r))
          = (b :: r).getLast hne := List.getLast_cons hne
      rw [hgl2, hhd2, hgl1, pathLen_append_one (b :: r) hne a]
      have hp1 : pathLen (a :: b :: r) = euclidean_distance a b + pathLen (b :: r) := rfl
      rw [hp1]
      congr 1
      show pathLen (b :: r) + euclidean_distance ((b :: r).getLast hne) a +
          euclidean_distance a b
        = euclidean_distance a b +
            pathLen (b :: r) + euclidean_distance ((b :: r).getLast hne) a
      ring

theorem calc_rotate : ∀ (n : ℕ) (l : List City), l ≠ [] →
    calculate_route_length (l.rotate n) = calculate_route_length l := by
  intro n
  induction n with
  | zero => intro l _; rw [List.rotate_zero]
  | succ n ih =>
      intro l h
      have h1 : l.rotate 1 ≠ [] := by
        intro e
        apply h
        have hlen := congrArg List.length e
        rw [List.length_rotate] at hlen
        exact List.length_eq_zero.mp hlen
      have hcomp : l.rotate (n + 1) = (l.rotate 1).rotate n := by
        rw [List.rotate_rotate, Nat.add_comm]
      rw [hcomp, ih (l.rotate 1) h1, calc_rotate_one l h]

theorem calc_reverse (l : List City) (h : l ≠ []) :
    calculate_route_length l.reverse = calculate_route_length l := by
  have hrev : l.reverse ≠ [] := by simp [h]
  rw [calc_len_eq _ hrev, calc_len_eq _ h, pathLen_reverse,
    List.getLast_reverse hrev, List.head_reverse hrev,
    euclidean_distance_comm]

/-! ## Claims C6, C7, C8, C9 -/

/-- C6: for any two tours `parentA` and `parentB` that are permutations of
the same set of pairwise-distinct cities, the crossover step (first half
of `parentA` followed by the unused cities of `parentB` in order) yields a
child that is a permutation of that same city set. -/
theorem crossover_yields_permutation (parentA parentB : Tour)
    (hnd : parentA.Nodup) (hperm : parentA.Perm parentB) :
    (crossover parentA parentB).Perm parentA ∧
    (crossover parentA parentB).Perm parentB :=
  ⟨crossover_perm parentA parentB hnd hperm,
    (crossover_perm parentA parentB hnd hperm).trans hperm⟩

theorem crossover_yields_permutation_witness :
    (([⟨1, 0, 0⟩, ⟨2, 1, 0⟩] : Tour).Nodup ∧
      ([⟨1, 0, 0⟩, ⟨2, 1, 0⟩] : Tour).Perm [⟨2, 1, 0⟩, ⟨1, 0, 0⟩]) ∧
    (crossover [⟨1, 0, 0⟩, ⟨2, 1, 0⟩] [⟨2, 1, 0⟩, ⟨1, 0, 0⟩]).Perm
      [⟨1, 0, 0⟩, ⟨2, 1, 0⟩] :=
  ⟨⟨by decide, by decide⟩,
    (crossover_yields_permutation [⟨1, 0, 0⟩, ⟨2, 1, 0⟩] [⟨2, 1, 0⟩, ⟨1, 0, 0⟩]
      (by decide) (by decide)).1⟩

/-- C7: with mutation probability 0, `swap_mutation` returns its input
unchanged; with probability 1 and a tour of length at least 2 it performs
exactly one swap of two distinct positions (all other positions
unchanged); with probability 1 and a shorter tour it fails. -/
theorem swap_mutation_spec (route : Tour) (r : ℚ) (pf : ℕ → ℕ × ℕ)
    (hr0 : 0 ≤ r) (hr1 : r < 1) (hpf : PairOK pf) :
    swap_mutation route 0 r pf = some route ∧
    (2 ≤ route.length →
      ∃ i j, i ≠ j ∧ i < route.length ∧ j < route.length ∧
        swap_mutation route 1 r pf = some (swap2 route i j) ∧
        (swap2 route i j).length = route.length ∧
        (swap2 route i j)[i]? = route[j]? ∧
        (swap2 route i j)[j]? = route[i]? ∧
        ∀ k, k ≠ i → k ≠ j → (swap2 route i j)[k]? = route[k]?) ∧
    (route.length < 2 → swap_mutation route 1 r pf = none) := by
  refine ⟨?_, ?_, ?_⟩
  · rw [swap_mutation, if_neg (not_lt.mpr hr0)]
  · intro h2
    obtain ⟨hij, hi, hj⟩ := hpf _ h2
    refine ⟨(pf route.length).1, (pf route.length).2, hij, hi, hj,
      by rw [swap_mutation, if_pos hr1, if_pos h2], ?_, ?_, ?_, ?_⟩
    · rw [swap2, List.length_set, List.length_set]
    · rw [swap2, List.getElem?_set_ne hij.symm, List.getElem?_set_self hi,
        List.getD_eq_getElem route cityD hj, List.getElem?_eq_getElem hj]
    · rw [swap2, List.getElem?_set_self (by rw [List.length_set]; exact hj),
        List.getD_eq_getElem route cityD hi, List.getElem?_eq_getElem hi]
    · intro k hki hkj
      rw [swap2, List.getElem?_set_ne (fun e => hkj e.symm),
        List.getElem?_set_ne (fun e => hki e.symm)]
  · intro hshort
    rw [swap_mutation, if_pos hr1, if_neg (by omega)]

theorem swap_mutation_spec_witness :
    ((0 : ℚ) ≤ 0 ∧ (0 : ℚ) < 1 ∧ PairOK pairOracle) ∧
    swap_mutation [⟨1, 0, 0⟩, ⟨2, 1, 0⟩] 0 0 pairOracle
      = some [⟨1, 0, 0⟩, ⟨2, 1, 0⟩] :=
  ⟨⟨le_refl 0, by norm_num, pairOracle_ok⟩,
    (swap_mutation_spec [⟨1, 0, 0⟩, ⟨2, 1, 0⟩] 0 pairOracle (le_refl 0)
      (by norm_num) pairOracle_ok).1⟩

/-- C8: the closed-tour length of a non-empty tour is invariant under
every cyclic rotation and under full reversal. -/
theorem route_length_rotation_reversal (route : Tour) (h : route ≠ []) :
    (∀ n, calculate_route_length (route.rotate n) = calculate_route_length route) ∧
    calculate_route_length route.reverse = calculate_route_length route :=
  ⟨fun n => calc_rotate n route h, calc_reverse route h⟩

theorem route_length_rotation_reversal_witness :
    (([⟨1, 0, 0⟩, ⟨2, 3, 4⟩] : Tour) ≠ []) ∧
    calculate_route_length (([⟨1, 0, 0⟩, ⟨2, 3, 4⟩] : Tour).reverse)
      = calculate_route_length [⟨1, 0, 0⟩, ⟨2, 3, 4⟩] :=
  ⟨by simp,
    (route_length_rotation_reversal [⟨1, 0, 0⟩, ⟨2, 3, 4⟩] (by simp)).2⟩

/-- The closed tour on a single city has length 0. -/
theorem calculate_route_length_singleton (c : City) :
    calculate_route_length [c] = some 0 := by
  show some (pathLen [c] + euclidean_distance c c) = some 0
  rw [euclidean_distance_self, pathLen]
  norm_num

/-- C9: `calculate_route_length` fails on the empty tour and returns
exactly 0 on every singleton tour (the closing edge from the city to
itself). -/
theorem route_length_empty_singleton :
    calculate_route_length ([] : Tour) = none ∧
    ∀ c : City, calculate_route_length [c] = some 0 :=
  ⟨rfl, calculate_route_length_singleton⟩

/-! ## Claim C5: tournament selection -/

/-- C5 (amended): for a population of non-empty tours and a tournament
size of AT LEAST 1 not exceeding the population size,
`tournament_selection` draws that many distinct tours without replacement
and returns a member of the sample whose length is minimal, ties broken
in favour of the first-encountered tour; it fails when the tournament
size exceeds the population size.  (At tournament size 0 — allowed by the
claim as stated — the code returns Python `None` rather than a member of
the empty sample; see the counterexample.) -/
theorem tournament_selection_spec (population : List Tour) (sel : ℕ → List ℕ)
    (tournament_size : ℕ) (htours : ∀ t ∈ population, t ≠ [])
    (hsel : SelOK sel tournament_size) (hpos : 1 ≤ tournament_size) :
    (tournament_size ≤ population.length →
      ∃ sample pre c post cs,
        pySample population tournament_size sel = some sample ∧
        sample.length = tournament_size ∧
        (∀ t ∈ sample, t ∈ population) ∧
        sample = pre ++ c :: post ∧
        tournament_selection population sel tournament_size = some (some c) ∧
        calculate_route_length c = some cs ∧
        (∀ u ∈ sample, ∀ su, calculate_route_length u = some su → cs ≤ su) ∧
        (∀ u ∈ pre, ∀ su, calculate_route_length u = some su → cs < su)) ∧
    (population.length < tournament_size →
      tournament_selection population sel tournament_size = none) := by
  constructor
  · intro hk
    obtain ⟨sample, hs, hlen, hmem⟩ :=
      pySample_spec population tournament_size sel hsel hk
    have hne : sample ≠ [] := by
      intro e
      rw [e] at hlen
      simp at hlen
      omega
    have hsc : ∀ t ∈ sample, ∃ s, calculate_route_length t = some s :=
      fun t ht => calculate_route_length_isSome t (htours t (hmem t ht))
    obtain ⟨pre, c, post, cs, hsplit, hloop, hc, hpre, hall⟩ :=
      tournamentLoop_none_spec sample hne hsc
    refine ⟨sample, pre, c, post, cs, hs, hlen, hmem, hsplit, ?_, hc, hall, hpre⟩
    rw [tournament_selection, hs]
    simp only
    rw [hloop]
    rfl
  · intro hk
    rw [tournament_selection]
    have e : pySample population tournament_size sel = none := by
      rw [pySample, if_neg (by omega)]
    rw [e]

/-- C5 fails as stated at tournament size 0 (which the claim's
quantification admits): on a singleton population of a non-empty tour the
code draws an empty sample and returns Python `None` — not a member of
the sample — instead of a tour. -/
theorem tournament_selection_spec_counterexample :
    SelOK (fun _ => []) 0 ∧ (∀ t ∈ [([⟨1, 0, 0⟩] : Tour)], t ≠ []) ∧
    (0 : ℕ) ≤ ([[⟨1, 0, 0⟩]] : List Tour).length ∧
    tournament_selection [[⟨1, 0, 0⟩]] (fun _ => []) 0 = some none := by
  refine ⟨?_, ?_, by simp, ?_⟩
  · intro n _
    exact ⟨rfl, List.nodup_nil, by simp⟩
  · intro t ht
    rw [List.mem_singleton.mp ht]
    exact List.cons_ne_nil _ _
  · rw [tournament_selection]
    have e : pySample [[⟨1, 0, 0⟩]] 0 (fun _ => []) = some [] := by
      rw [pySample, if_pos (by simp)]
      rfl
    rw [e]
    rfl

theorem tournament_selection_spec_witness :
    (∀ t ∈ List.replicate 7 ([⟨1, 0, 0⟩] : Tour), t ≠ []) ∧ SelOK selOracle7 7 ∧
    ∃ c, tournament_selection (List.replicate 7 [⟨1, 0, 0⟩]) selOracle7 7
      = some (some c) := by
  have htours : ∀ t ∈ List.replicate 7 ([⟨1, 0, 0⟩] : Tour), t ≠ [] := by
    intro t ht
    rw [List.eq_of_mem_replicate ht]
    exact List.cons_ne_nil _ _
  refine ⟨htours, selOracle7_ok, ?_⟩
  obtain ⟨sample, pre, c, post, cs, _, _, _, _, hts, _⟩ :=
    (tournament_selection_spec (List.replicate 7 [⟨1, 0, 0⟩]) selOracle7 7
      htours selOracle7_ok (by norm_num)).1 (by simp)
  exact ⟨c, hts⟩

/-! ## Claim C3 (amended): size-1 population -/

/-- C3 (amended): with the hard-coded tournament size 7 a generation on a
population of size 1 fails (see the counterexample); what does hold is:
`tournament_selection` invoked with tournament size 1 on a singleton
population returns the sole tour, crossover of a duplicate-free tour with
itself returns that same tour, and its fitness is unchanged. -/
theorem singleton_generation_spec (t : Tour) (sel : ℕ → List ℕ)
    (hne : t ≠ []) (hnd : t.Nodup) (hsel : SelOK sel 1) :
    tournament_selection [t] sel 1 = some (some t) ∧
    crossover t t = t ∧
    calculate_route_length (crossover t t) = calculate_route_length t := by
  refine ⟨?_, crossover_self t hnd, by rw [crossover_self t hnd]⟩
  rw [tournament_selection]
  have hsam : pySample [t] 1 sel = some [t] := by
    rw [pySample, if_pos (by simp)]
    obtain ⟨a, ha⟩ := List.length_eq_one.mp (hsel 1 (le_refl 1)).1
    have ha0 : a = 0 := by
      have := (hsel 1 (le_refl 1)).2.2 a (by rw [ha]; exact List.mem_singleton_self a)
      omega
    rw [show ([t] : List Tour).length = 1 from rfl, ha, ha0]
    rfl
  rw [hsam]
  simp only
  obtain ⟨s, hs⟩ := calculate_route_length_isSome t hne
  rw [tournamentLoop, hs]
  simp only
  rw [tournamentLoop]
  rfl

/-- C3 fails as stated on the code: one generation of the evolution loop
on a population of size 1 raises (`random.sample` of 7 from 1). -/
theorem singleton_generation_counterexample :
    create_new_epoch [[⟨1, 0, 0⟩]] (1 / 5 : ℚ)
      (fun _ => ⟨selOracle7, selOracle7, 0, pairOracle⟩) = none :=
  create_new_epoch_none _ _ _ (by simp) (by simp)

theorem singleton_generation_spec_witness :
    (([⟨1, 0, 0⟩, ⟨2, 1, 0⟩] : Tour) ≠ [] ∧
      ([⟨1, 0, 0⟩, ⟨2, 1, 0⟩] : Tour).Nodup ∧ SelOK selOracle0 1) ∧
    tournament_selection [([⟨1, 0, 0⟩, ⟨2, 1, 0⟩] : Tour)] selOracle0 1
      = some (some [⟨1, 0, 0⟩, ⟨2, 1, 0⟩]) :=
  ⟨⟨by simp, by decide, selOracle0_ok⟩,
    (singleton_generation_spec [⟨1, 0, 0⟩, ⟨2, 1, 0⟩] selOracle0 (by simp)
      (by decide) selOracle0_ok).1⟩

/-! ## Claim C4 (amended): hard-coded tournament size 7 -/

/-- C4 (amended): the evolution loop never passes a tournament size, so
sampling always draws 7; `create_new_epoch` fails on every NON-EMPTY
population smaller than 7 (on the empty population its loop body never
runs and it returns an empty population — see the counterexample), the
sampling step succeeds on every population of size at least 7, and
`run_genetic_algorithm` with at least one epoch fails for every initial
population size below 7. -/
theorem tournament_always_seven (population : List Tour) (mp : ℚ)
    (chs : ℕ → GenChoices) (sel : ℕ → List ℕ) (cities : List City)
    (ips epochs : ℕ) (shs : ℕ → List City → List City)
    (chss : ℕ → ℕ → GenChoices) :
    (population ≠ [] → population.length < 7 →
      create_new_epoch population mp chs = none) ∧
    (7 ≤ population.length → SelOK sel 7 →
      ∃ sample, pySample population 7 sel = some sample ∧ sample.length = 7) ∧
    (1 ≤ epochs → ips < 7 →
      run_genetic_algorithm cities ips epochs mp shs chss = none) := by
  refine ⟨fun hne h => create_new_epoch_none population mp chs hne h, ?_,
    fun he hips => run_none_of_small cities ips epochs mp shs chss he hips⟩
  intro h7 hsel
  obtain ⟨sample, hs, hlen, _⟩ := pySample_spec population 7 sel hsel h7
  exact ⟨sample, hs, hlen⟩

/-- C4 fails as stated at the empty population: `create_new_epoch` on a
population of size 0 (< 7) runs its loop zero times and succeeds with an
empty new population instead of raising. -/
theorem tournament_always_seven_counterexample :
    create_new_epoch ([] : List Tour) (1 / 5 : ℚ)
      (fun _ => ⟨selOracle7, selOracle7, 0, pairOracle⟩) = some [] ∧
    ([] : List Tour).length < 7 := by
  constructor
  · rw [create_new_epoch, List.length_nil, create_new_epoch_go]
  · simp

theorem tournament_always_seven_witness :
    create_new_epoch [[⟨1, 0, 0⟩]] (1 / 5 : ℚ)
      (fun _ => ⟨selOracle0, selOracle0, 0, pairOracle⟩) = none ∧
    (∃ sample, pySample (List.replicate 7 ([⟨1, 0, 0⟩] : Tour)) 7 selOracle7
      = some sample ∧ sample.length = 7) ∧
    run_genetic_algorithm [⟨1, 0, 0⟩] 1 1 (1 / 5 : ℚ) (fun _ => id)
      (fun _ _ => ⟨selOracle0, selOracle0, 0, pairOracle⟩) = none := by
  refine ⟨?_, ?_, ?_⟩
  · exact (tournament_always_seven [[⟨1, 0, 0⟩]] (1 / 5)
      (fun _ => ⟨selOracle0, selOracle0, 0, pairOracle⟩) selOracle0 [] 0 0
      (fun _ => id) (fun _ _ => ⟨selOracle0, selOracle0, 0, pairOracle⟩)).1
      (by simp) (by simp)
  · exact (tournament_always_seven (List.replicate 7 [⟨1, 0, 0⟩]) (1 / 5)
      (fun _ => ⟨selOracle0, selOracle0, 0, pairOracle⟩) selOracle7 [] 0 0
      (fun _ => id) (fun _ _ => ⟨selOracle0, selOracle0, 0, pairOracle⟩)).2.1
      (by simp) selOracle7_ok
  · exact (tournament_always_seven [] (1 / 5)
      (fun _ => ⟨selOracle0, selOracle0, 0, pairOracle⟩) selOracle0 [⟨1, 0, 0⟩]
      1 1 (fun _ => id)
      (fun _ _ => ⟨selOracle0, selOracle0, 0, pairOracle⟩)).2.2
      (le_refl 1) (by norm_num)

/-! ## Claim C1: permutation invariant -/

/-- C1: for a non-empty duplicate-free city list, `greedy_algorithm` (at
any in-range start index) and `random_algorithm` return permutations of
the input cities; the initial GA population consists of permutations of
the input; and every generation step of `run_genetic_algorithm` preserves
the property that every tour of the population is a permutation of the
input — no city duplicated, none dropped. -/
theorem population_permutation_invariant (cities : List City) (start : ℕ)
    (sh : List City → List City) (hne : cities ≠ []) (hnd : cities.Nodup)
    (hstart : start < cities.length) (hsh : ShuffleOK sh) :
    (∃ route, greedy_algorithm cities start = some route ∧ route.Perm cities) ∧
    (random_algorithm cities sh).Perm cities ∧
    (∀ (ips : ℕ) (shs : ℕ → List City → List City), (∀ i, ShuffleOK (shs i)) →
      ∀ t ∈ (List.range ips).map (fun i => random_algorithm cities (shs i)),
        t.Perm cities) ∧
    (∀ (mp : ℚ) (chs : ℕ → GenChoices) (st st' : GAState), ChoicesOK chs →
      (∀ t ∈ st.population, t.Perm cities) →
      ga_epoch mp chs st = some st' → ∀ t ∈ st'.population, t.Perm cities) := by
  refine ⟨greedy_algorithm_perm cities start hstart, hsh cities, ?_, ?_⟩
  · intro ips shs hshs t ht
    obtain ⟨i, _, rfl⟩ := List.mem_map.mp ht
    exact hshs i cities
  · intro mp chs st st' hchs hpop h
    obtain ⟨pop, scores, m, w, h1, _, _, _, hp, _, _, _, _, _⟩ :=
      ga_epoch_spec mp chs st st' h
    rw [hp]
    exact create_new_epoch_perm cities st.population mp chs pop hnd hpop hchs h1

theorem population_permutation_invariant_witness :
    (([⟨1, 0, 0⟩, ⟨2, 1, 0⟩] : List City) ≠ [] ∧
      ([⟨1, 0, 0⟩, ⟨2, 1, 0⟩] : List City).Nodup ∧
      0 < ([⟨1, 0, 0⟩, ⟨2, 1, 0⟩] : List City).length ∧
      ShuffleOK id) ∧
    (∃ route, greedy_algorithm [⟨1, 0, 0⟩, ⟨2, 1, 0⟩] 0 = some route ∧
      route.Perm [⟨1, 0, 0⟩, ⟨2, 1, 0⟩]) :=
  ⟨⟨by simp, by decide, by simp, fun l => List.Perm.refl l⟩,
    (population_permutation_invariant [⟨1, 0, 0⟩, ⟨2, 1, 0⟩] 0 id (by simp)
      (by decide) (by simp) (fun l => List.Perm.refl l)).1⟩

/-! ## Claim C2: best-score tracking -/

/-- C2: over a successful run with at least one epoch, the tracked best
score decreases monotonically epoch to epoch and is only replaced by a
strictly smaller score; at termination the returned best score is the
minimum of the recorded per-epoch minima — each the minimum over every
individual of that generation's population — and the returned best
solution is a tour of exactly that length. -/
theorem best_score_tracking (cities : List City) (ips epochs : ℕ) (mp : ℚ)
    (shs : ℕ → List City → List City) (chs : ℕ → ℕ → GenChoices)
    (st : GAState)
    (hrun : run_genetic_algorithm cities ips epochs mp shs chs = some st)
    (heps : 1 ≤ epochs) :
    (∃ sol s, st.best = some (sol, s) ∧ calculate_route_length sol = some s ∧
      listMin st.best_scores_per_epoch = some s ∧
      ∀ x ∈ st.best_scores_per_epoch, s ≤ x) ∧
    (∀ (mp2 : ℚ) (chs2 : ℕ → GenChoices) (st1 st2 : GAState),
      ga_epoch mp2 chs2 st1 = some st2 → ∀ b bs, st1.best = some (b, bs) →
      ∃ b2 bs2, st2.best = some (b2, bs2) ∧ bs2 ≤ bs ∧
        (st2.best = st1.best ∨ bs2 < bs)) ∧
    (∀ (mp2 : ℚ) (chs2 : ℕ → GenChoices) (st1 st2 : GAState),
      ga_epoch mp2 chs2 st1 = some st2 →
      ∃ pop scores m, create_new_epoch st1.population mp2 chs2 = some pop ∧
        scoresOf pop = some scores ∧ listMin scores = some m ∧
        (∀ x ∈ scores, m ≤ x) ∧ st2.population = pop ∧
        st2.best_scores_per_epoch = st1.best_scores_per_epoch ++ [m]) := by
  refine ⟨?_, ?_, ?_⟩
  · rw [run_genetic_algorithm] at hrun
    have hinv : BestInv st :=
      ga_loop_bestInv mp chs epochs 0 _ st (Or.inl ⟨rfl, rfl⟩) hrun
    have hlen := ga_loop_bests_len mp chs epochs 0 _ st hrun
    rcases hinv with ⟨_, hbests⟩ | ⟨b, bs, hbsome, hblen, hbmin⟩
    · rw [hbests] at hlen
      simp at hlen
      omega
    · exact ⟨b, bs, hbsome, hblen, hbmin,
        listMin_le st.best_scores_per_epoch bs hbmin⟩
  · intro mp2 chs2 st1 st2 h b bs hb
    obtain ⟨pop, scores, m, w, _, _, _, _, _, _, _, _, _, hdisj⟩ :=
      ga_epoch_spec mp2 chs2 st1 st2 h
    rcases hdisj with ⟨hbn, _⟩ | ⟨b0, bs0, hb0, hlt, hb'⟩ | ⟨b0, bs0, hb0, hlt, hb'⟩
    · rw [hb] at hbn; cases hbn
    · have hbs : bs = bs0 := by
        rw [hb] at hb0
        exact congrArg Prod.snd (Option.some_inj.mp hb0)
      exact ⟨_, m, hb', le_of_lt (hbs ▸ hlt), Or.inr (hbs ▸ hlt)⟩
    · have heq : (b, bs) = (b0, bs0) := by
        rw [hb] at hb0
        exact Option.some_inj.mp hb0
      have hbs : bs = bs0 := congrArg Prod.snd heq
      exact ⟨b0, bs0, hb', le_of_eq hbs.symm, Or.inl (by rw [hb', hb, heq])⟩
  · intro mp2 chs2 st1 st2 h
    obtain ⟨pop, scores, m, w, h1, h2, h3, _, hp, hbep, _, _, hmle, _⟩ :=
      ga_epoch_spec mp2 chs2 st1 st2 h
    exact ⟨pop, scores, m, h1, h2, h3, hmle, hp, hbep⟩

/-! ## A concrete one-epoch run, evaluated step by step -/

/-- A one-city tour used to instantiate the run. -/
def tourW : Tour := [⟨1, 0, 0⟩]

/-- A population of seven copies of `tourW`. -/
def popW : List Tour := List.replicate 7 tourW

/-- A sample oracle always answering seven copies of position 0. -/
def selConst7 : ℕ → List ℕ := fun _ => List.replicate 7 0

/-- The per-iteration random draws of the concrete run. -/
def chW : GenChoices := ⟨selConst7, selConst7, 0, pairOracle⟩

theorem tourW_len : calculate_route_length tourW = some 0 :=
  calculate_route_length_singleton _

theorem popW_sample : pySample popW 7 selConst7 = some popW := by
  rw [pySample, if_pos (by rw [popW, List.length_replicate])]
  show some ((List.replicate 7 0).map fun i => popW.getD i []) = some popW
  rw [List.map_replicate]
  have : popW.getD 0 [] = tourW := rfl
  rw [this, popW]

theorem loopW_some : ∀ n : ℕ,
    tournamentLoop (List.replicate n tourW) (some (tourW, 0)) =
      some (some (tourW, 0)) := by
  intro n
  induction n with
  | zero => rfl
  | succ n ih =>
      rw [List.replicate_succ, tournamentLoop, tourW_len]
      simp only
      rw [if_neg (lt_irrefl 0)]
      exact ih

theorem loopW : tournamentLoop popW none = some (some (tourW, 0)) := by
  rw [popW, List.replicate_succ, tournamentLoop, tourW_len]
  simp only
  exact loopW_some 6

theorem tournamentW : tournament_selection popW selConst7 7 = some (some tourW) := by
  rw [tournament_selection, popW_sample]
  simp only
  rw [loopW]
  rfl

theorem create_childW : create_child popW 0 chW = some tourW := by
  rw [create_child]
  show (match tournament_selection popW selConst7 7 with
    | some (some parent1) =>
        match tournament_selection popW selConst7 7 with
        | some (some parent2) => swap_mutation (crossover parent1 parent2) 0 chW.r chW.pair
        | _ => none
    | _ => none) = some tourW
  rw [tournamentW]
  simp only
  rfl

theorem epoch_goW : ∀ (k i : ℕ),
    create_new_epoch_go popW 0 (fun _ => chW) i k
      = some (List.replicate k tourW) := by
  intro k
  induction k with
  | zero => intro i; rfl
  | succ k ih =>
      intro i
      rw [create_new_epoch_go]
      show (match create_child popW 0 chW with
        | none => none
        | some child =>
            match create_new_epoch_go popW 0 (fun _ => chW) (i + 1) k with
            | none => none
            | some rest => some (child :: rest)) = _
      rw [create_childW, ih (i + 1)]
      simp only
      rw [← List.replicate_succ]

theorem create_new_epochW : create_new_epoch popW 0 (fun _ => chW) = some popW := by
  rw [create_new_epoch]
  have hl : popW.length = 7 := by rw [popW, List.length_replicate]
  rw [hl, epoch_goW 7 0, popW]

theorem scoresOfW : ∀ n : ℕ,
    scoresOf (List.replicate n tourW) = some (List.replicate n (0 : ℝ)) := by
  intro n
  induction n with
  | zero => rfl
  | succ n ih =>
      rw [List.replicate_succ, scoresOf, tourW_len, ih]
      simp only
      rw [← List.replicate_succ]

theorem foldl_min_zeros : ∀ n : ℕ,
    List.foldl min (0 : ℝ) (List.replicate n 0) = 0 := by
  intro n
  induction n with
  | zero => rfl
  | succ n ih =>
      rw [List.replicate_succ, List.foldl_cons, min_self]
      exact ih

theorem foldl_max_zeros : ∀ n : ℕ,
    List.foldl max (0 : ℝ) (List.replicate n 0) = 0 := by
  intro n
  induction n with
  | zero => rfl
  | succ n ih =>
      rw [List.replicate_succ, List.foldl_cons, max_self]
      exact ih

theorem listMinW : listMin (List.replicate 7 (0 : ℝ)) = some 0 := by
  rw [List.replicate_succ, listMin, foldl_min_zeros 6]

theorem listMaxW : listMax (List.replicate 7 (0 : ℝ)) = some 0 := by
  rw [List.replicate_succ, listMax, foldl_max_zeros 6]

/-- The final state of the concrete one-epoch run. -/
def stFW : GAState := ⟨popW, some (tourW, 0), [0], [0], [0]⟩

theorem ga_epochW :
    ga_epoch 0 (fun _ => chW) ⟨popW, none, [], [], []⟩ = some stFW := by
  rw [ga_epoch]
  show (match create_new_epoch popW 0 (fun _ => chW) with
    | none => none
    | some population =>
        match scoresOf population with
        | none => none
        | some scores =>
            match listMin scores, listMax scores with
            | some best_epoch_score, some worst_epoch_score =>
                let avg_epoch_score : ℝ := scores.sum / scores.length
                let best :=
                  match (none : Option (Tour × ℝ)) with
                  | none =>
                      some (population.getD (indexOfR best_epoch_score scores) [],
                        best_epoch_score)
                  | some (b, bs) =>
                      if best_epoch_score < bs then
                        some (population.getD (indexOfR best_epoch_score scores) [],
                          best_epoch_score)
                      else some (b, bs)
                some ⟨population, best, [] ++ [best_epoch_score],
                  [] ++ [avg_epoch_score], [] ++ [worst_epoch_score]⟩
            | _, _ => none) = some stFW
  rw [create_new_epochW]
  simp only
  rw [show scoresOf popW = some (List.replicate 7 (0 : ℝ)) from by
    rw [popW]; exact scoresOfW 7]
  simp only
  rw [listMinW, listMaxW]
  simp only
  have hidx : indexOfR (0 : ℝ) (List.replicate 7 (0 : ℝ)) = 0 := by
    rw [List.replicate_succ, indexOfR, if_pos rfl]
  have havg : (List.replicate 7 (0 : ℝ)).sum / ((List.replicate 7 (0 : ℝ)).length : ℝ)
      = 0 := by
    rw [List.sum_replicate]
    simp
  rw [hidx, havg]
  show some (⟨popW, some (popW.getD 0 [], 0), [(0 : ℝ)], [(0 : ℝ)], [(0 : ℝ)]⟩ : GAState)
    = some stFW
  rw [show popW.getD 0 [] = tourW from rfl]
  rfl

theorem runW :
    run_genetic_algorithm [⟨1, 0, 0⟩] 7 1 0 (fun _ => id) (fun _ _ => chW)
      = some stFW := by
  rw [run_genetic_algorithm]
  have hinit : (List.range 7).map
      (fun i => random_algorithm [⟨1, 0, 0⟩] ((fun _ => id) i)) = popW := by
    rfl
  rw [hinit, ga_loop]
  show (match ga_epoch 0 (fun _ => chW) ⟨popW, none, [], [], []⟩ with
    | none => none
    | some st1 => ga_loop 0 (fun _ _ => chW) 1 0 st1) = some stFW
  rw [ga_epochW]
  simp only
  rw [ga_loop]

theorem best_score_tracking_witness :
    run_genetic_algorithm [⟨1, 0, 0⟩] 7 1 0 (fun _ => id) (fun _ _ => chW)
      = some stFW ∧ (1 : ℕ) ≤ 1 ∧
    ∃ sol s, stFW.best = some (sol, s) ∧
      calculate_route_length sol = some s ∧
      listMin stFW.best_scores_per_epoch = some s ∧
      ∀ x ∈ stFW.best_scores_per_epoch, s ≤ x :=
  ⟨runW, le_refl 1,
    (best_score_tracking [⟨1, 0, 0⟩] 7 1 0 (fun _ => id) (fun _ _ => chW) stFW
      runW (le_refl 1)).1⟩

/-! ## Claim C10: greedy on the unit square -/

/-- The four unit-square cities of end-to-end scenario A, in input order
`(0,0), (0,1), (1,1), (1,0)`. -/
def cities4 : List City := [⟨1, 0, 0⟩, ⟨2, 0, 1⟩, ⟨3, 1, 1⟩, ⟨4, 1, 0⟩]

theorem dist_12 : euclidean_distance ⟨1, 0, 0⟩ ⟨2, 0, 1⟩ = 1 := by
  rw [euclidean_distance]
  norm_num

theorem dist_13 : euclidean_distance ⟨1, 0, 0⟩ ⟨3, 1, 1⟩ = Real.sqrt 2 := by
  rw [euclidean_distance]
  norm_num

theorem dist_14 : euclidean_distance ⟨1, 0, 0⟩ ⟨4, 1, 0⟩ = 1 := by
  rw [euclidean_distance]
  norm_num

theorem dist_23 : euclidean_distance ⟨2, 0, 1⟩ ⟨3, 1, 1⟩ = 1 := by
  rw [euclidean_distance]
  norm_num

theorem dist_24 : euclidean_distance ⟨2, 0, 1⟩ ⟨4, 1, 0⟩ = Real.sqrt 2 := by
  rw [euclidean_distance]
  norm_num

theorem dist_34 : euclidean_distance ⟨3, 1, 1⟩ ⟨4, 1, 0⟩ = 1 := by
  rw [euclidean_distance]
  norm_num

theorem dist_41 : euclidean_distance ⟨4, 1, 0⟩ ⟨1, 0, 0⟩ = 1 := by
  rw [euclidean_distance]
  norm_num

theorem sqrt_two_not_lt_one : ¬ (Real.sqrt 2 < 1) := by
  apply not_lt.mpr
  rw [show (1 : ℝ) = Real.sqrt 1 from Real.sqrt_one.symm]
  exact Real.sqrt_le_sqrt (by norm_num)

theorem nearest_from_1 :
    selectNearest ⟨1, 0, 0⟩ [⟨2, 0, 1⟩, ⟨3, 1, 1⟩, ⟨4, 1, 0⟩] none
      = some (⟨2, 0, 1⟩, 1) := by
  rw [selectNearest]
  rw [dist_12, selectNearest]
  rw [dist_13, if_neg sqrt_two_not_lt_one, selectNearest]
  rw [dist_14, if_neg (lt_irrefl (1 : ℝ)), selectNearest]

theorem nearest_from_2 :
    selectNearest ⟨2, 0, 1⟩ [⟨3, 1, 1⟩, ⟨4, 1, 0⟩] none
      = some (⟨3, 1, 1⟩, 1) := by
  rw [selectNearest]
  rw [dist_23, selectNearest]
  rw [dist_24, if_neg sqrt_two_not_lt_one, selectNearest]

theorem nearest_from_3 :
    selectNearest ⟨3, 1, 1⟩ [⟨4, 1, 0⟩] none = some (⟨4, 1, 0⟩, 1) := by
  rw [selectNearest]
  rw [dist_34, selectNearest]

theorem greedy_go_sq1 :
    greedy_go 3 ⟨1, 0, 0⟩ [⟨2, 0, 1⟩, ⟨3, 1, 1⟩, ⟨4, 1, 0⟩]
      = [⟨2, 0, 1⟩, ⟨3, 1, 1⟩, ⟨4, 1, 0⟩] := by
  rw [greedy_go, nearest_from_1]
  simp only
  rw [show ([⟨2, 0, 1⟩, ⟨3, 1, 1⟩, ⟨4, 1, 0⟩] : List City).erase ⟨2, 0, 1⟩
      = [⟨3, 1, 1⟩, ⟨4, 1, 0⟩] from by decide]
  rw [greedy_go, nearest_from_2]
  simp only
  rw [show ([⟨3, 1, 1⟩, ⟨4, 1, 0⟩] : List City).erase ⟨3, 1, 1⟩
      = [⟨4, 1, 0⟩] from by decide]
  rw [greedy_go, nearest_from_3]
  simp only
  rw [show ([⟨4, 1, 0⟩] : List City).erase ⟨4, 1, 0⟩ = [] from by decide]
  rw [greedy_go]

theorem route_length_sq : calculate_route_length cities4 = some 4 := by
  show some (pathLen cities4 +
    euclidean_distance ((cities4).getLast (by simp [cities4])) ⟨1, 0, 0⟩) = some 4
  have hgl : (cities4).getLast (by simp [cities4]) = ⟨4, 1, 0⟩ := rfl
  rw [hgl, dist_41]
  have hpl : pathLen cities4 = 3 := by
    show euclidean_distance ⟨1, 0, 0⟩ ⟨2, 0, 1⟩ +
      (euclidean_distance ⟨2, 0, 1⟩ ⟨3, 1, 1⟩ +
        (euclidean_distance ⟨3, 1, 1⟩ ⟨4, 1, 0⟩ + pathLen [⟨4, 1, 0⟩])) = 3
    rw [dist_12, dist_23, dist_34, pathLen]
    norm_num
  rw [hpl]
  norm_num

/-- C10: the greedy constructor starts its route at the requested start
index; on the four unit-square cities `(0,0), (0,1), (1,1), (1,0)`
starting at index 0 it visits them in perimeter order (the input order
itself) and the resulting closed tour has length exactly 4. -/
theorem greedy_unit_square (cities : List City) (start : ℕ)
    (h : start < cities.length) :
    (∃ route, greedy_algorithm cities start = some route ∧
      route.head? = cities[start]?) ∧
    greedy_algorithm cities4 0 = some cities4 ∧
    calculate_route_length cities4 = some 4 := by
  refine ⟨?_, ?_, route_length_sq⟩
  · refine ⟨_, by rw [greedy_algorithm, dif_pos h], ?_⟩
    rw [List.head?_cons, List.getElem?_eq_getElem h]
    rfl
  · rw [greedy_algorithm, dif_pos (show (0 : ℕ) < cities4.length from by
      norm_num [cities4])]
    show some (⟨1, 0, 0⟩ ::
      greedy_go 3 ⟨1, 0, 0⟩ [⟨2, 0, 1⟩, ⟨3, 1, 1⟩, ⟨4, 1, 0⟩]) = some cities4
    rw [greedy_go_sq1]
    rfl

theorem greedy_unit_square_witness :
    (0 < cities4.length) ∧
    ∃ route, greedy_algorithm cities4 0 = some route ∧
      route.head? = cities4[0]? :=
  ⟨by norm_num [cities4],
    (greedy_unit_square cities4 0 (by norm_num [cities4])).1⟩

end GA
